import Mathlib

/-!
Shallow embedding of the `derive_fromstr` attribute macro (src/src/lib.rs).

Strings are modelled as `List Char` (a Rust `String` is a sequence of
codepoints stored in UTF-8; `String::len` and slice indices `&s[..n]` count
UTF-8 *bytes*, which we model via `utf8Size`/`byteLen`/`byteTake`).
Rust panics (`unwrap`, out-of-boundary slicing) are modelled as
`Except.error`; the compile error emitted by `syn::Error::to_compile_error`
is a distinct constructor carrying the variant index and the fixed message.

`to_lowercase` is modelled as the codepoint-wise ASCII lowercase map and
`str::trim` removes leading/trailing Unicode whitespace codepoints; both
agree with the Rust functions on every string appearing in this
development.
-/

namespace DeriveFromstr

instance {ε α : Type} [DecidableEq ε] [DecidableEq α] : DecidableEq (Except ε α) :=
  fun x y =>
    match x, y with
    | Except.ok a, Except.ok b =>
        if h : a = b then isTrue (by rw [h])
        else isFalse (by intro hc; cases hc; exact h rfl)
    | Except.ok _, Except.error _ => isFalse (by intro hc; cases hc)
    | Except.error _, Except.ok _ => isFalse (by intro hc; cases hc)
    | Except.error e, Except.error f =>
        if h : e = f then isTrue (by rw [h])
        else isFalse (by intro hc; cases hc; exact h rfl)

theorem char_toNat_ofNatAux (n : Nat) (h : n.isValidChar) :
    (Char.ofNatAux n h).toNat = n := rfl

/-- Codepoint-wise lowercasing, modelling `char`-by-`char` application of
`str::to_lowercase` (ASCII range; identity elsewhere). -/
def toLowerChar (c : Char) : Char :=
  if h : 65 ≤ c.toNat ∧ c.toNat ≤ 90 then
    Char.ofNatAux (c.toNat + 32) (Or.inl (by omega))
  else c

/-- Model of `str::to_lowercase` (lib.rs lines 60, 75, 79, 92, 101). -/
def lowercaseStr (s : List Char) : List Char := s.map toLowerChar

/-- Model of `char::is_whitespace`: the Unicode `White_Space` codepoints. -/
def isWs (c : Char) : Bool :=
  c.toNat = 9 ∨ c.toNat = 10 ∨ c.toNat = 11 ∨ c.toNat = 12 ∨ c.toNat = 13 ∨ c.toNat = 32 ∨
  c.toNat = 133 ∨ c.toNat = 160 ∨ c.toNat = 5760 ∨
  (8192 ≤ c.toNat ∧ c.toNat ≤ 8202) ∨ c.toNat = 8232 ∨ c.toNat = 8233 ∨
  c.toNat = 8239 ∨ c.toNat = 8287 ∨ c.toNat = 12288

/-- Model of `str::trim` (lib.rs lines 92, 97): drop leading and trailing
whitespace codepoints. -/
def trimStr (s : List Char) : List Char :=
  ((s.dropWhile isWs).reverse.dropWhile isWs).reverse

/-- Number of bytes of the UTF-8 encoding of a codepoint. -/
def utf8Size (c : Char) : Nat :=
  if c.toNat < 0x80 then 1
  else if c.toNat < 0x800 then 2
  else if c.toNat < 0x10000 then 3
  else 4

/-- Model of `String::len` (lib.rs line 72): UTF-8 byte length. -/
def byteLen (s : List Char) : Nat := (s.map utf8Size).sum

/-- Model of the byte slice `&full_name[..trunc]` (lib.rs line 73):
`some` prefix when the byte index falls on a codepoint boundary,
`none` (a Rust panic) when it falls inside a multi-byte codepoint.
The caller guarantees the index is below the byte length. -/
def byteTake : List Char → Nat → Option (List Char)
  | _, 0 => some []
  | [], _ + 1 => none
  | c :: rest, n + 1 =>
      if utf8Size c ≤ n + 1 then (byteTake rest (n + 1 - utf8Size c)).map (c :: ·)
      else none

/-- A literal appearing nested in an attribute argument list:
`syn::NestedMeta::Lit`, separating `Lit::Int` (with its mathematical value)
from every other literal kind. -/
inductive LitArg where
  | int (value : Nat)
  | notInt
  deriving DecidableEq

/-- One attribute argument (`syn::NestedMeta`): a bare path like `trim`,
a list like `truncate(3)` (with its nested literals), a literal, or any
other form. -/
inductive NestedArg where
  | path (name : String)
  | listMeta (name : String) (nested : List LitArg)
  | lit (l : LitArg)
  | other
  deriving DecidableEq

/-- lib.rs lines 10-16: `args.iter().any(... path.is_ident("trim") ...)`. -/
def has_trim (args : List NestedArg) : Bool :=
  args.any fun a =>
    match a with
    | NestedArg.path n => n = "trim"
    | _ => false

/-- lib.rs lines 17-23: `args.iter().any(... path.is_ident("lowercase") ...)`. -/
def has_lowercase (args : List NestedArg) : Bool :=
  args.any fun a =>
    match a with
    | NestedArg.path n => n = "lowercase"
    | _ => false

/-- Largest value of Rust's `usize` (64-bit target). -/
def USIZE_MAX : Nat := 2 ^ 64 - 1

/-- `LitInt::base10_parse::<usize>`: succeeds exactly when the literal's
value fits in `usize`. -/
def base10_parse_usize (v : Nat) : Option Nat :=
  if v ≤ USIZE_MAX then some v else none

/-- lib.rs lines 25-35: `find_map` over the arguments looking for
`truncate(<int literal>)`; the `.unwrap()` on `base10_parse` is modelled
as `Except.error ()` (a panic of the whole macro expansion). -/
def truncate_value : List NestedArg → Except Unit (Option Nat)
  | [] => Except.ok none
  | NestedArg.listMeta name nested :: rest =>
      if name = "truncate" ∧ nested.length = 1 then
        match nested.head? with
        | some (LitArg.int v) =>
            match base10_parse_usize v with
            | some n => Except.ok (some n)
            | none => Except.error ()
        | _ => truncate_value rest
      else truncate_value rest
  | _ :: rest => truncate_value rest

/-- One enum variant: its identifier and whether its fields are
`syn::Fields::Unit`. -/
structure Variant where
  name : List Char
  isUnit : Bool
  deriving DecidableEq

/-- The three matching options (spec `Config`): derived from the argument
list, used by the table builder and the input transform. -/
structure Config where
  trim : Bool
  lowercase : Bool
  truncate : Option Nat
  deriving DecidableEq

/-- How a macro expansion can fail: a Rust panic, or the emitted
`compile_error!` (lib.rs lines 46-49) carrying the index of the offending
variant and the fixed message. -/
inductive GenFailure where
  | panic
  | compileError (variantIdx : Nat) (msg : List Char)
  deriving DecidableEq

/-- The fixed diagnostic of lib.rs line 47:
`concat!(env!("CARGO_PKG_NAME"), ": variants with data are not supported")`. -/
def dataVariantMsg : List Char :=
  "derive_fromstr: variants with data are not supported".data

/-- lib.rs lines 43-52: the for-loop returning at the first variant whose
fields are not `Unit`; yields that variant's index. -/
def firstDataVariant : List Variant → Option Nat
  | [] => none
  | v :: rest => if v.isUnit then (firstDataVariant rest).map (· + 1) else some 0

/-- lib.rs line 60: the pattern of a primary match arm,
`if has_lowercase { var_name.to_lowercase() } else { var_name }`. -/
def primaryPattern (cfg : Config) (name : List Char) : List Char :=
  if cfg.lowercase then lowercaseStr name else name

/-- lib.rs lines 55-65: primary match arms, one per variant in declaration
order; the `Nat` is the variant's index (starting at `i`). -/
def primaryArmsFrom (cfg : Config) : Nat → List (List Char) → List (List Char × Nat)
  | _, [] => []
  | i, n :: rest => (primaryPattern cfg n, i) :: primaryArmsFrom cfg (i + 1) rest

/-- lib.rs lines 68-87: the alias pass. For each variant (index starting
at `i`): if `full_name.len() > trunc`, slice the first `trunc` bytes
(panic if not on a codepoint boundary), optionally lowercase, and append
the arm when the result differs from the normalized full name. The
`truncated` and `original` normalizations of lines 74-79 are exactly
`primaryPattern` applied to the sliced and the full identifier. -/
def aliasArmsFrom (cfg : Config) (trunc : Nat) :
    Nat → List (List Char) → Except Unit (List (List Char × Nat))
  | _, [] => Except.ok []
  | i, n :: rest =>
      if byteLen n > trunc then
        match byteTake n trunc with
        | none => Except.error ()
        | some t =>
            if primaryPattern cfg t ≠ primaryPattern cfg n then
              (aliasArmsFrom cfg trunc (i + 1) rest).map ((primaryPattern cfg t, i) :: ·)
            else
              aliasArmsFrom cfg trunc (i + 1) rest
      else aliasArmsFrom cfg trunc (i + 1) rest

/-- The artifacts of a successful expansion that the claims are about: the
options record and the ordered match table (pattern, variant index). -/
structure Generated where
  cfg : Config
  table : List (List Char × Nat)
  deriving DecidableEq

/-- lib.rs lines 7-144, `derive_fromstr`: option parsing (the `truncate`
`unwrap` can panic), the unit-variant check (first offender aborts with a
compile error), then the match table: primary arms followed by alias arms
(byte slicing can panic). -/
def derive_fromstr (args : List NestedArg) (variants : List Variant) :
    Except GenFailure Generated :=
  match truncate_value args with
  | Except.error _ => Except.error GenFailure.panic
  | Except.ok tv =>
      match firstDataVariant variants with
      | some i => Except.error (GenFailure.compileError i dataVariantMsg)
      | none =>
          let cfg : Config := ⟨has_trim args, has_lowercase args, tv⟩
          let names := variants.map Variant.name
          let prim := primaryArmsFrom cfg 0 names
          match tv with
          | none => Except.ok ⟨cfg, prim⟩
          | some trunc =>
              match aliasArmsFrom cfg trunc 0 names with
              | Except.error _ => Except.error GenFailure.panic
              | Except.ok al => Except.ok ⟨cfg, prim ++ al⟩

/-- lib.rs lines 89-106: the normalization applied to the input before the
match; when both flags are set the order is trim first, then lowercase. -/
def transform (cfg : Config) (s : List Char) : List Char :=
  if cfg.trim && cfg.lowercase then lowercaseStr (trimStr s)
  else if cfg.trim then trimStr s
  else if cfg.lowercase then lowercaseStr s
  else s

/-- lib.rs lines 124-130, the generated `from_str`: rebinds `s` to the
transformed input (the `let s = ...` shadowing), matches the arms in table
order, and on a miss returns `UnknownVariant(s.to_string())` where `s` is
the *rebound*, i.e. normalized, string. -/
def from_str (cfg : Config) (table : List (List Char × Nat)) (s : List Char) :
    Except (List Char) Nat :=
  let s2 := transform cfg s
  match table.find? (fun e => e.1 == s2) with
  | some e => Except.ok e.2
  | none => Except.error s2

/-- The parse operation of a generated artifact. -/
def parseGen (g : Generated) (s : List Char) : Except (List Char) Nat :=
  from_str g.cfg g.table s

/-! Helper lemmas about the character-level models. -/

theorem toNat_toLowerChar_of_upper (c : Char) (h : 65 ≤ c.toNat ∧ c.toNat ≤ 90) :
    (toLowerChar c).toNat = c.toNat + 32 := by
  simp [toLowerChar, h, char_toNat_ofNatAux]

theorem toLowerChar_idem (c : Char) : toLowerChar (toLowerChar c) = toLowerChar c := by
  by_cases h : 65 ≤ c.toNat ∧ c.toNat ≤ 90
  · have h2 : (toLowerChar c).toNat = c.toNat + 32 := toNat_toLowerChar_of_upper c h
    conv_lhs => rw [toLowerChar]
    rw [dif_neg (by omega)]
  · unfold toLowerChar
    rw [dif_neg h, dif_neg h]

theorem isWs_toLowerChar (c : Char) (h : isWs c = false) : isWs (toLowerChar c) = false := by
  by_cases hu : 65 ≤ c.toNat ∧ c.toNat ≤ 90
  · have h2 := toNat_toLowerChar_of_upper c hu
    simp only [isWs, decide_eq_false_iff_not] at *
    omega
  · unfold toLowerChar
    rw [dif_neg hu]
    exact h

theorem lowercaseStr_idem (s : List Char) :
    lowercaseStr (lowercaseStr s) = lowercaseStr s := by
  simp [lowercaseStr, List.map_map, Function.comp_def, toLowerChar_idem]

theorem lowercaseStr_no_ws (s : List Char) (h : ∀ c ∈ s, isWs c = false) :
    ∀ c ∈ lowercaseStr s, isWs c = false := by
  intro c hc
  simp only [lowercaseStr, List.mem_map] at hc
  obtain ⟨a, ha, rfl⟩ := hc
  exact isWs_toLowerChar a (h a ha)

theorem dropWhile_isWs_eq_self (s : List Char) (h : ∀ c ∈ s, isWs c = false) :
    s.dropWhile isWs = s := by
  cases s with
  | nil => rfl
  | cons c rest =>
      have hc : isWs c = false := h c (List.mem_cons_self c rest)
      simp [List.dropWhile, hc]

theorem trimStr_eq_self (s : List Char) (h : ∀ c ∈ s, isWs c = false) :
    trimStr s = s := by
  unfold trimStr
  rw [dropWhile_isWs_eq_self s h]
  rw [dropWhile_isWs_eq_self s.reverse (by intro c hc; exact h c (List.mem_reverse.mp hc))]
  exact List.reverse_reverse s

theorem utf8Size_pos (c : Char) : 1 ≤ utf8Size c := by
  unfold utf8Size
  split <;> [omega; skip]
  split <;> [omega; skip]
  split <;> omega

theorem byteLen_pos (s : List Char) (h : s ≠ []) : 0 < byteLen s := by
  cases s with
  | nil => exact absurd rfl h
  | cons c rest =>
      have := utf8Size_pos c
      simp only [byteLen, List.map_cons, List.sum_cons]
      omega

/-- The transform fixes every primary pattern built from a whitespace-free
identifier (the pattern is already trimmed and lowercased as needed). -/
theorem transform_primaryPattern (cfg : Config) (name : List Char)
    (h : ∀ c ∈ name, isWs c = false) :
    transform cfg (primaryPattern cfg name) = primaryPattern cfg name := by
  have hpws : ∀ c ∈ primaryPattern cfg name, isWs c = false := by
    unfold primaryPattern
    split
    · exact lowercaseStr_no_ws name h
    · exact h
  have htrim : trimStr (primaryPattern cfg name) = primaryPattern cfg name :=
    trimStr_eq_self _ hpws
  have hlow : cfg.lowercase = true →
      lowercaseStr (primaryPattern cfg name) = primaryPattern cfg name := by
    intro hl
    simp only [primaryPattern, hl, if_true]
    exact lowercaseStr_idem name
  unfold transform
  cases htr : cfg.trim <;> cases hlc : cfg.lowercase <;>
    simp only [htr, hlc, Bool.and_self, Bool.and_false, Bool.false_and, Bool.and_true,
      Bool.true_and, if_true, if_false, htrim, Bool.false_eq_true, ite_false, ite_true]
  · exact hlow hlc
  · exact hlow hlc

/-! Lemmas about the match table and the expansion pipeline. -/


theorem derive_ok_parts (args : List NestedArg) (variants : List Variant) (g : Generated)
    (h : derive_fromstr args variants = Except.ok g) :
    truncate_value args = Except.ok g.cfg.truncate ∧
    g.cfg.trim = has_trim args ∧
    g.cfg.lowercase = has_lowercase args ∧
    firstDataVariant variants = none ∧
    ∃ al, g.table = primaryArmsFrom g.cfg 0 (variants.map Variant.name) ++ al ∧
      ((g.cfg.truncate = none ∧ al = []) ∨
        ∃ N, g.cfg.truncate = some N ∧
          aliasArmsFrom g.cfg N 0 (variants.map Variant.name) = Except.ok al) := by
  unfold derive_fromstr at h
  cases htv : truncate_value args with
  | error u => rw [htv] at h; cases h
  | ok tv =>
      rw [htv] at h
      cases hfd : firstDataVariant variants with
      | some i => rw [hfd] at h; cases h
      | none =>
          rw [hfd] at h
          simp only at h
          cases tv with
          | none =>
              cases h
              exact ⟨rfl, rfl, rfl, rfl, [], by simp, Or.inl ⟨rfl, rfl⟩⟩
          | some N =>
              simp only at h
              cases hal : aliasArmsFrom ⟨has_trim args, has_lowercase args, some N⟩ N 0 (variants.map Variant.name) with
              | error u => rw [hal] at h; cases h
              | ok al =>
                  rw [hal] at h
                  cases h
                  exact ⟨rfl, rfl, rfl, rfl, al, rfl, Or.inr ⟨N, rfl, hal⟩⟩


theorem find?_primaryArmsFrom_eq_some (cfg : Config) (p : List Char) :
    ∀ (names : List (List Char)) (k j : Nat), j < names.length →
      primaryPattern cfg (names.getD j []) = p →
      (∀ m, m < j → primaryPattern cfg (names.getD m []) ≠ p) →
      (primaryArmsFrom cfg k names).find? (fun e => e.1 == p) = some (p, k + j) := by
  intro names
  induction names with
  | nil => intro k j hj _ _; simp at hj
  | cons n rest ih =>
      intro k j hj hpat hfirst
      cases j with
      | zero =>
          simp only [List.getD_cons_zero] at hpat
          rw [primaryArmsFrom, List.find?_cons_of_pos _ (by simp [hpat])]
          simp [hpat]
      | succ m =>
          have h0 : primaryPattern cfg n ≠ p := by
            have := hfirst 0 (Nat.succ_pos m)
            simpa using this
          rw [primaryArmsFrom, List.find?_cons_of_neg _ (by simp [h0])]
          have heq := ih (k + 1) m (by simpa using hj) (by simpa using hpat)
            (fun m2 hm2 => by
              have := hfirst (m2 + 1) (Nat.succ_lt_succ hm2)
              simpa using this)
          rw [heq]
          have : k + 1 + m = k + (m + 1) := by omega
          rw [this]

theorem find?_primaryArmsFrom_eq_none (cfg : Config) (p : List Char) :
    ∀ (names : List (List Char)) (k : Nat),
      (∀ j, j < names.length → primaryPattern cfg (names.getD j []) ≠ p) →
      (primaryArmsFrom cfg k names).find? (fun e => e.1 == p) = none := by
  intro names
  induction names with
  | nil => intro k _; rfl
  | cons n rest ih =>
      intro k h
      have h0 : primaryPattern cfg n ≠ p := by simpa using h 0 (by simp)
      rw [primaryArmsFrom, List.find?_cons_of_neg _ (by simp [h0])]
      exact ih (k + 1) (fun j hj => by simpa using h (j + 1) (by simpa using hj))

theorem aliasArmsFrom_snd_ge (cfg : Config) (N : Nat) :
    ∀ (names : List (List Char)) (k : Nat) (al : List (List Char × Nat)),
      aliasArmsFrom cfg N k names = Except.ok al → ∀ e ∈ al, k ≤ e.2 := by
  intro names
  induction names with
  | nil =>
      intro k al h e he
      rw [aliasArmsFrom] at h
      cases h
      simp at he
  | cons n rest ih =>
      intro k al h e he
      rw [aliasArmsFrom] at h
      by_cases hlen : byteLen n > N
      · rw [if_pos hlen] at h
        cases hbt : byteTake n N with
        | none => rw [hbt] at h; cases h
        | some t =>
            rw [hbt] at h
            simp only at h
            by_cases hne : primaryPattern cfg t ≠ primaryPattern cfg n
            · rw [if_pos hne] at h
              cases hrest : aliasArmsFrom cfg N (k + 1) rest with
              | error u => rw [hrest] at h; cases h
              | ok al2 =>
                  rw [hrest] at h
                  simp only [Except.map] at h
                  cases h
                  rcases List.mem_cons.mp he with he0 | he1
                  · rw [he0]
                  · have := ih (k + 1) al2 hrest e he1
                    omega
            · rw [if_neg hne] at h
              have := ih (k + 1) al h e he
              omega
      · rw [if_neg hlen] at h
        have := ih (k + 1) al h e he
        omega


theorem mem_aliasArmsFrom_iff (cfg : Config) (N : Nat) :
    ∀ (names : List (List Char)) (k : Nat) (al : List (List Char × Nat)),
      aliasArmsFrom cfg N k names = Except.ok al →
      ∀ i, i < names.length →
        (((primaryPattern cfg ((byteTake (names.getD i []) N).getD []), k + i) ∈ al ↔
          (N < byteLen (names.getD i []) ∧
           primaryPattern cfg ((byteTake (names.getD i []) N).getD []) ≠
             primaryPattern cfg (names.getD i []))) ∧
         (∀ q, (q, k + i) ∈ al →
            q = primaryPattern cfg ((byteTake (names.getD i []) N).getD []))) := by
  intro names
  induction names with
  | nil => intro k al h i hi; simp at hi
  | cons n rest ih =>
      intro k al h i hi
      rw [aliasArmsFrom] at h
      by_cases hlen : byteLen n > N
      · rw [if_pos hlen] at h
        cases hbt : byteTake n N with
        | none => rw [hbt] at h; cases h
        | some t =>
            rw [hbt] at h
            simp only at h
            by_cases hne : primaryPattern cfg t ≠ primaryPattern cfg n
            · rw [if_pos hne] at h
              cases hrest : aliasArmsFrom cfg N (k + 1) rest with
              | error u => rw [hrest] at h; cases h
              | ok al2 =>
                  rw [hrest] at h
                  simp only [Except.map] at h
                  cases h
                  cases i with
                  | zero =>
                      simp only [List.getD_cons_zero, hbt, Option.getD_some, Nat.add_zero]
                      refine ⟨⟨fun _ => ⟨hlen, hne⟩, fun _ => List.mem_cons_self _ _⟩, ?_⟩
                      intro q hq
                      rcases List.mem_cons.mp hq with h0 | h1
                      · exact congrArg Prod.fst h0
                      · exfalso
                        have := aliasArmsFrom_snd_ge cfg N rest (k + 1) al2 hrest _ h1
                        simp at this
                  | succ m =>
                      have hm : m < rest.length := by simpa using hi
                      obtain ⟨hiff, huniq⟩ := ih (k + 1) al2 hrest m hm
                      have hk : k + (m + 1) = k + 1 + m := by omega
                      simp only [List.getD_cons_succ, hk]
                      constructor
                      · constructor
                        · intro hmem
                          rcases List.mem_cons.mp hmem with h0 | h1
                          · exfalso
                            have h2 : k + 1 + m = k := congrArg Prod.snd h0
                            omega
                          · exact hiff.mp h1
                        · intro hcond
                          exact List.mem_cons_of_mem _ (hiff.mpr hcond)
                      · intro q hq
                        rcases List.mem_cons.mp hq with h0 | h1
                        · exfalso
                          have h2 : k + 1 + m = k := congrArg Prod.snd h0
                          omega
                        · exact huniq q h1
            · rw [if_neg hne] at h
              push_neg at hne
              cases i with
              | zero =>
                  simp only [List.getD_cons_zero, hbt, Option.getD_some, Nat.add_zero]
                  constructor
                  · constructor
                    · intro hmem
                      exfalso
                      have := aliasArmsFrom_snd_ge cfg N rest (k + 1) al h _ hmem
                      simp at this
                    · intro hcond
                      exact absurd hne hcond.2
                  · intro q hq
                    exfalso
                    have := aliasArmsFrom_snd_ge cfg N rest (k + 1) al h _ hq
                    simp at this
              | succ m =>
                  have hm : m < rest.length := by simpa using hi
                  have hk : k + (m + 1) = k + 1 + m := by omega
                  simp only [List.getD_cons_succ, hk]
                  exact ih (k + 1) al h m hm
      · rw [if_neg hlen] at h
        cases i with
        | zero =>
            simp only [List.getD_cons_zero, Nat.add_zero]
            constructor
            · constructor
              · intro hmem
                exfalso
                have := aliasArmsFrom_snd_ge cfg N rest (k + 1) al h _ hmem
                simp at this
              · intro hcond
                exact absurd hcond.1 hlen
            · intro q hq
              exfalso
              have := aliasArmsFrom_snd_ge cfg N rest (k + 1) al h _ hq
              simp at this
        | succ m =>
            have hm : m < rest.length := by simpa using hi
            have hk : k + (m + 1) = k + 1 + m := by omega
            simp only [List.getD_cons_succ, hk]
            exact ih (k + 1) al h m hm


theorem getD_mem_of_lt {α : Type} (l : List α) (d : α) (j : Nat) (hj : j < l.length) :
    l.getD j d ∈ l := by
  rw [List.getD_eq_getElem l d hj]
  exact List.getElem_mem hj

theorem parse_first_primary (args : List NestedArg) (variants : List Variant)
    (g : Generated) (s : List Char) (j : Nat)
    (h : derive_fromstr args variants = Except.ok g)
    (hj : j < variants.length)
    (hpat : primaryPattern g.cfg ((variants.map Variant.name).getD j []) = transform g.cfg s)
    (hfirst : ∀ k, k < j →
        primaryPattern g.cfg ((variants.map Variant.name).getD k []) ≠ transform g.cfg s) :
    parseGen g s = Except.ok j := by
  obtain ⟨-, -, -, -, al, htab, -⟩ := derive_ok_parts args variants g h
  have hlen : j < (variants.map Variant.name).length := by simpa using hj
  have hfind := find?_primaryArmsFrom_eq_some g.cfg (transform g.cfg s)
      (variants.map Variant.name) 0 j hlen hpat hfirst
  unfold parseGen from_str
  simp only
  rw [htab, List.find?_append, hfind]
  simp

theorem firstDataVariant_eq_none :
    ∀ (variants : List Variant), (∀ v ∈ variants, v.isUnit = true) →
      firstDataVariant variants = none := by
  intro variants
  induction variants with
  | nil => intro _; rfl
  | cons v rest ih =>
      intro h
      rw [firstDataVariant, if_pos (h v (List.mem_cons_self v rest)),
        ih (fun w hw => h w (List.mem_cons_of_mem v hw))]
      rfl

theorem firstDataVariant_eq_some :
    ∀ (variants : List Variant) (i : Nat), i < variants.length →
      (variants.getD i ⟨[], true⟩).isUnit = false →
      (∀ j, j < i → (variants.getD j ⟨[], true⟩).isUnit = true) →
      firstDataVariant variants = some i := by
  intro variants
  induction variants with
  | nil => intro i hi; simp at hi
  | cons v rest ih =>
      intro i hi hdata hprev
      cases i with
      | zero =>
          simp only [List.getD_cons_zero] at hdata
          rw [firstDataVariant, if_neg (by simp [hdata])]
      | succ m =>
          have h0 : v.isUnit = true := by simpa using hprev 0 (Nat.succ_pos m)
          rw [firstDataVariant, if_pos h0,
            ih m (by simpa using hi) (by simpa using hdata)
              (fun j hj => by simpa using hprev (j + 1) (Nat.succ_lt_succ hj))]
          rfl

theorem byteTake_zero (n : List Char) : byteTake n 0 = some [] := by
  cases n <;> rfl

theorem aliasArmsFrom_trunc_zero (cfg : Config) (hlc : cfg.lowercase = false) :
    ∀ (names : List (List Char)) (k : Nat), (∀ n ∈ names, n ≠ []) →
      aliasArmsFrom cfg 0 k names =
        Except.ok ((List.range names.length).map (fun i => ([], k + i))) := by
  intro names
  induction names with
  | nil => intro k _; rfl
  | cons n rest ih =>
      intro k h
      have hn : n ≠ [] := h n (List.mem_cons_self n rest)
      have hpos : byteLen n > 0 := byteLen_pos n hn
      rw [aliasArmsFrom, if_pos hpos, byteTake_zero]
      simp only
      have hpe : primaryPattern cfg [] ≠ primaryPattern cfg n := by
        simp only [primaryPattern, hlc, Bool.false_eq_true, if_false]
        exact fun hc => hn hc.symm
      rw [if_pos hpe, ih (k + 1) (fun w hw => h w (List.mem_cons_of_mem n hw))]
      simp only [Except.map, List.length_cons, List.range_succ_eq_map, List.map_cons,
        List.map_map, Function.comp_def, Nat.add_zero]
      have hp0 : primaryPattern cfg [] = [] := by
        simp [primaryPattern, hlc]
      rw [hp0]
      have hfun : (fun i => (([] : List Char), k + 1 + i)) =
          (fun x : Nat => (([] : List Char), k + x.succ)) := by
        funext x
        congr 1
        omega
      rw [hfun]



theorem derive_ok_intro (args : List NestedArg) (variants : List Variant)
    (tv : Nat) (al : List (List Char × Nat))
    (htv : truncate_value args = Except.ok (some tv))
    (hfd : firstDataVariant variants = none)
    (hal : aliasArmsFrom ⟨has_trim args, has_lowercase args, some tv⟩ tv 0
        (variants.map Variant.name) = Except.ok al) :
    derive_fromstr args variants =
      Except.ok ⟨⟨has_trim args, has_lowercase args, some tv⟩,
        primaryArmsFrom ⟨has_trim args, has_lowercase args, some tv⟩ 0
          (variants.map Variant.name) ++ al⟩ := by
  unfold derive_fromstr
  rw [htv]
  simp only
  rw [hfd]
  simp only
  rw [hal]

/-- C1 counterexample: with `trim, lowercase` and variants `{Red, Green}`,
the generated parse applied to `"  red!  "` returns `UnknownVariant`
carrying the NORMALIZED string `"red!"`, which differs from the original
input, contradicting the claim that the payload is always the original
untransformed string. -/
theorem c1_counterexample :
    (derive_fromstr [NestedArg.path "trim", NestedArg.path "lowercase"]
        [⟨"Red".data, true⟩, ⟨"Green".data, true⟩]).map
      (fun g => parseGen g "  red!  ".data) =
      Except.ok (Except.error "red!".data) ∧
    "red!".data ≠ "  red!  ".data := by decide

/-- C1 (amended): because the generated `from_str` rebinds `s` to the
transformed input, a miss returns `UnknownVariant` carrying the normalized
(trimmed/lowercased per configuration) string, never the original. -/
theorem c1_miss_returns_normalized (cfg : Config) (table : List (List Char × Nat))
    (s : List Char)
    (h : table.find? (fun e => e.1 == transform cfg s) = none) :
    from_str cfg table s = Except.error (transform cfg s) := by
  unfold from_str
  simp only
  rw [h]

theorem c1_miss_returns_normalized_witness :
    ([("red".data, 0), ("green".data, 1)].find?
        (fun e => e.1 == transform ⟨true, true, none⟩ "  red!  ".data) = none) ∧
    from_str ⟨true, true, none⟩ [("red".data, 0), ("green".data, 1)] "  red!  ".data =
      Except.error (transform ⟨true, true, none⟩ "  red!  ".data) :=
  ⟨by decide, c1_miss_returns_normalized ⟨true, true, none⟩ _ _ (by decide)⟩

/-- C2: truncation slices the first N BYTES of the identifier, not the
first N codepoints: on variant `Über` with `truncate(1)` the whole
expansion panics (byte index 1 falls inside the 2-byte codepoint `Ü`),
while the first codepoint `"Ü"` would be a well-defined fragment. -/
theorem c2_truncate_byte_slice_panics :
    derive_fromstr [NestedArg.listMeta "truncate" [LitArg.int 1]]
        [⟨"Über".data, true⟩] = Except.error GenFailure.panic ∧
    List.take 1 "Über".data = "Ü".data := by decide

/-- C3: a `truncate` argument overflowing `usize` makes the expansion
panic via `unwrap` (no diagnostic), and a missing or non-integer argument
is silently ignored (no diagnostic either), contradicting the required
generation-time diagnostic at the directive site. -/
theorem c3_truncate_arg_panic_or_ignored :
    truncate_value [NestedArg.listMeta "truncate" [LitArg.int (2 ^ 64)]] =
      Except.error () ∧
    derive_fromstr [NestedArg.listMeta "truncate" [LitArg.int (2 ^ 64)]]
        [⟨"Red".data, true⟩] = Except.error GenFailure.panic ∧
    truncate_value [NestedArg.listMeta "truncate" []] = Except.ok none ∧
    truncate_value [NestedArg.listMeta "truncate" [LitArg.notInt]] = Except.ok none := by
  decide

/-- C4 counterexample: for variants `{RED, Red}` with `lowercase`, parsing
the normalized name of `Red` (index 1) yields `Ok` of `RED` (index 0), so
the round trip fails for `Red`. -/
theorem c4_counterexample :
    (derive_fromstr [NestedArg.path "lowercase"]
        [⟨"RED".data, true⟩, ⟨"Red".data, true⟩]).map
      (fun g => parseGen g (lowercaseStr "Red".data)) = Except.ok (Except.ok 0) ∧
    (Except.ok (Except.ok 0) : Except GenFailure (Except (List Char) Nat)) ≠
      Except.ok (Except.ok 1) := by decide

/-- C4 (amended): the round trip holds for every variant whenever the
variants' normalized primary patterns are pairwise distinct (identifiers
are whitespace-free): parsing variant i's pattern returns `Ok i`. -/
theorem c4_roundtrip_distinct_patterns (args : List NestedArg)
    (variants : List Variant) (g : Generated) (i : Nat)
    (h : derive_fromstr args variants = Except.ok g)
    (hi : i < variants.length)
    (hws : ∀ v ∈ variants, ∀ c ∈ v.name, isWs c = false)
    (hdist : ∀ j k, j < variants.length → k < variants.length → j ≠ k →
        primaryPattern g.cfg ((variants.map Variant.name).getD j []) ≠
          primaryPattern g.cfg ((variants.map Variant.name).getD k [])) :
    parseGen g (primaryPattern g.cfg ((variants.map Variant.name).getD i [])) =
      Except.ok i := by
  have hmem : (variants.map Variant.name).getD i [] ∈ variants.map Variant.name :=
    getD_mem_of_lt _ _ i (by simpa using hi)
  obtain ⟨v, hv, hvn⟩ := List.mem_map.mp hmem
  have hnws : ∀ c ∈ (variants.map Variant.name).getD i [], isWs c = false := by
    rw [← hvn]
    exact hws v hv
  have htr := transform_primaryPattern g.cfg ((variants.map Variant.name).getD i []) hnws
  exact parse_first_primary args variants g _ i h hi htr.symm
    (fun k hk => by
      rw [htr]
      exact hdist k i (by omega) hi (by omega))

theorem c4_roundtrip_distinct_patterns_witness :
    parseGen ⟨⟨false, false, none⟩, [("Red".data, 0), ("Green".data, 1)]⟩
      (primaryPattern ⟨false, false, none⟩
        (([⟨"Red".data, true⟩, ⟨"Green".data, true⟩].map Variant.name).getD 0 [])) =
      Except.ok 0 :=
  c4_roundtrip_distinct_patterns [] [⟨"Red".data, true⟩, ⟨"Green".data, true⟩]
    ⟨⟨false, false, none⟩, [("Red".data, 0), ("Green".data, 1)]⟩ 0
    (by decide) (by decide) (by decide)
    (fun j k hj hk hne => by
      simp only [List.length_cons, List.length_nil] at hj hk
      interval_cases j <;> interval_cases k <;> first | exact absurd rfl hne | decide)

/-- C5 counterexample: the variant `Öab` has 3 codepoints, so with
`truncate(3)` the claim says no alias is appended; but its byte length is
4, and the code appends the alias `("Öa", 0)`. -/
theorem c5_counterexample :
    "Öab".data.length ≤ 3 ∧
    derive_fromstr [NestedArg.listMeta "truncate" [LitArg.int 3]]
        [⟨"Öab".data, true⟩] =
      Except.ok ⟨⟨false, false, some 3⟩, [("Öab".data, 0), ("Öa".data, 0)]⟩ := by
  decide

/-- C5 (amended): when the alias pass succeeds, variant i contributes an
alias entry iff N is strictly below the identifier's BYTE length and the
normalized byte-truncated pattern differs from the normalized full
pattern; the entry's pattern is uniquely that byte-truncated pattern. In
particular an identifier of at most N bytes contributes no alias. -/
theorem c5_alias_iff_bytes (cfg : Config) (N : Nat) (names : List (List Char))
    (al : List (List Char × Nat))
    (h : aliasArmsFrom cfg N 0 names = Except.ok al)
    (i : Nat) (hi : i < names.length) :
    ((primaryPattern cfg ((byteTake (names.getD i []) N).getD []), i) ∈ al ↔
      (N < byteLen (names.getD i []) ∧
       primaryPattern cfg ((byteTake (names.getD i []) N).getD []) ≠
         primaryPattern cfg (names.getD i []))) ∧
    (∀ q, (q, i) ∈ al →
      q = primaryPattern cfg ((byteTake (names.getD i []) N).getD [])) := by
  have := mem_aliasArmsFrom_iff cfg N names 0 al h i hi
  simpa using this

theorem c5_alias_iff_bytes_witness :
    (aliasArmsFrom ⟨false, false, some 2⟩ 2 0 ["Get".data, "Post".data] =
      Except.ok [("Ge".data, 0), ("Po".data, 1)]) ∧
    (primaryPattern ⟨false, false, some 2⟩
        ((byteTake (["Get".data, "Post".data].getD 0 []) 2).getD []), 0) ∈
      [("Ge".data, 0), ("Po".data, 1)] :=
  ⟨by decide,
    (c5_alias_iff_bytes ⟨false, false, some 2⟩ 2 ["Get".data, "Post".data]
        [("Ge".data, 0), ("Po".data, 1)] (by decide) 0 (by decide)).1.mpr (by decide)⟩

/-- C6: every successful expansion's table is the primary arms (in
declaration order) followed by the alias arms, lookup is first-match, and
whenever the normalized input equals some primary pattern the result is
the FIRST primary entry with that pattern — never an alias. -/
theorem c6_primaries_precede_aliases_first_match (args : List NestedArg)
    (variants : List Variant) (g : Generated)
    (h : derive_fromstr args variants = Except.ok g) :
    (∃ al, g.table = primaryArmsFrom g.cfg 0 (variants.map Variant.name) ++ al ∧
        ((g.cfg.truncate = none ∧ al = []) ∨
          ∃ N, g.cfg.truncate = some N ∧
            aliasArmsFrom g.cfg N 0 (variants.map Variant.name) = Except.ok al)) ∧
    (∀ s i, i < variants.length →
      transform g.cfg s = primaryPattern g.cfg ((variants.map Variant.name).getD i []) →
      ∃ j, j ≤ i ∧
        primaryPattern g.cfg ((variants.map Variant.name).getD j []) = transform g.cfg s ∧
        (∀ k, k < j →
          primaryPattern g.cfg ((variants.map Variant.name).getD k []) ≠
            transform g.cfg s) ∧
        parseGen g s = Except.ok j) := by
  obtain ⟨-, -, -, -, al, htab, halspec⟩ := derive_ok_parts args variants g h
  refine ⟨⟨al, htab, halspec⟩, ?_⟩
  intro s i hi hs
  haveI := Classical.decPred (fun n : Nat => n < variants.length ∧
    primaryPattern g.cfg ((variants.map Variant.name).getD n []) = transform g.cfg s)
  have hex : ∃ n, n < variants.length ∧
      primaryPattern g.cfg ((variants.map Variant.name).getD n []) = transform g.cfg s :=
    ⟨i, hi, hs.symm⟩
  obtain ⟨hjlen, hjpat⟩ := Nat.find_spec hex
  have hjle : Nat.find hex ≤ i := Nat.find_min' hex ⟨hi, hs.symm⟩
  have hfirst : ∀ k, k < Nat.find hex →
      primaryPattern g.cfg ((variants.map Variant.name).getD k []) ≠ transform g.cfg s := by
    intro k hk hck
    exact Nat.find_min hex hk ⟨by omega, hck⟩
  exact ⟨Nat.find hex, hjle, hjpat, hfirst,
    parse_first_primary args variants g s (Nat.find hex) h hjlen hjpat hfirst⟩

theorem c6_primaries_precede_aliases_first_match_witness :
    (derive_fromstr [] [⟨"Red".data, true⟩, ⟨"Green".data, true⟩] =
      Except.ok ⟨⟨false, false, none⟩, [("Red".data, 0), ("Green".data, 1)]⟩) ∧
    parseGen ⟨⟨false, false, none⟩, [("Red".data, 0), ("Green".data, 1)]⟩ "Red".data =
      Except.ok 0 := by
  constructor
  · decide
  · obtain ⟨j, hj, -, -, hp⟩ :=
      (c6_primaries_precede_aliases_first_match []
        [⟨"Red".data, true⟩, ⟨"Green".data, true⟩]
        ⟨⟨false, false, none⟩, [("Red".data, 0), ("Green".data, 1)]⟩ (by decide)).2
        "Red".data 0 (by decide) (by decide)
    have hj0 : j = 0 := by omega
    rwa [hj0] at hp

/-- C7: if variant i is the first (in declaration order) whose fields are
not unit, the expansion aborts with the fixed compile error located at
variant i, and no artifacts are produced (the result is an error, not a
`Generated`). The `truncate` option parsing runs first, so it must not
have panicked. -/
theorem c7_data_variant_aborts_generation (args : List NestedArg)
    (variants : List Variant) (tv : Option Nat) (i : Nat)
    (htv : truncate_value args = Except.ok tv)
    (hi : i < variants.length)
    (hdata : (variants.getD i ⟨[], true⟩).isUnit = false)
    (hprev : ∀ j, j < i → (variants.getD j ⟨[], true⟩).isUnit = true) :
    derive_fromstr args variants =
      Except.error (GenFailure.compileError i dataVariantMsg) := by
  have hfd := firstDataVariant_eq_some variants i hi hdata hprev
  unfold derive_fromstr
  rw [htv]
  simp only
  rw [hfd]

theorem c7_data_variant_aborts_generation_witness :
    (truncate_value [] = Except.ok none) ∧
    derive_fromstr [] [⟨"Red".data, true⟩, ⟨"Bad".data, false⟩] =
      Except.error (GenFailure.compileError 1 dataVariantMsg) :=
  ⟨by decide,
    c7_data_variant_aborts_generation [] [⟨"Red".data, true⟩, ⟨"Bad".data, false⟩]
      none 1 (by decide) (by decide) (by decide)
      (fun j hj => by
        have hj0 : j = 0 := by omega
        rw [hj0]
        decide)⟩

/-- C8: the normalization is: trim then lowercase when both flags are set,
the single transform when one flag is set, the identity when neither is;
and with `trim, lowercase` the input `"  RED  "` parses to `Red`. -/
theorem c8_transform_order :
    (∀ tv s, transform ⟨true, true, tv⟩ s = lowercaseStr (trimStr s)) ∧
    (∀ tv s, transform ⟨true, false, tv⟩ s = trimStr s) ∧
    (∀ tv s, transform ⟨false, true, tv⟩ s = lowercaseStr s) ∧
    (∀ tv s, transform ⟨false, false, tv⟩ s = s) ∧
    (derive_fromstr [NestedArg.path "trim", NestedArg.path "lowercase"]
        [⟨"Red".data, true⟩, ⟨"Green".data, true⟩]).map
      (fun g => parseGen g "  RED  ".data) = Except.ok (Except.ok 0) :=
  ⟨fun tv s => rfl, fun tv s => rfl, fun tv s => rfl, fun tv s => rfl, by decide⟩

/-- C9: `truncate(0)` is accepted; every variant (all names nonempty) gains
an empty-string alias, appended after the primary arms in declaration
order, and parsing the empty input returns `Ok` of the first variant. -/
theorem c9_truncate_zero_first_variant (variants : List Variant)
    (hne : variants ≠ [])
    (hunit : ∀ v ∈ variants, v.isUnit = true)
    (hnames : ∀ v ∈ variants, v.name ≠ []) :
    ∃ g, derive_fromstr [NestedArg.listMeta "truncate" [LitArg.int 0]] variants =
        Except.ok g ∧
      g.table = primaryArmsFrom g.cfg 0 (variants.map Variant.name) ++
        (List.range variants.length).map (fun i => ([], i)) ∧
      parseGen g [] = Except.ok 0 := by
  have hnn : ∀ n ∈ variants.map Variant.name, n ≠ [] := by
    intro n hn
    obtain ⟨v, hv, rfl⟩ := List.mem_map.mp hn
    exact hnames v hv
  have hal : aliasArmsFrom ⟨false, false, some 0⟩ 0 0 (variants.map Variant.name) =
      Except.ok ((List.range variants.length).map (fun i => ([], i))) := by
    rw [aliasArmsFrom_trunc_zero ⟨false, false, some 0⟩ rfl (variants.map Variant.name) 0 hnn]
    simp
  have hg := derive_ok_intro [NestedArg.listMeta "truncate" [LitArg.int 0]] variants 0
    ((List.range variants.length).map (fun i => ([], i))) rfl
    (firstDataVariant_eq_none variants hunit) hal
  refine ⟨_, hg, rfl, ?_⟩
  have hfnone : (primaryArmsFrom ⟨false, false, some 0⟩ 0 (variants.map Variant.name)).find?
      (fun e => e.1 == ([] : List Char)) = none := by
    apply find?_primaryArmsFrom_eq_none
    intro j hj hc
    have hmem : (variants.map Variant.name).getD j [] ∈ variants.map Variant.name :=
      getD_mem_of_lt _ _ j hj
    have : (variants.map Variant.name).getD j [] ≠ [] := hnn _ hmem
    exact this hc
  cases variants with
  | nil => exact absurd rfl hne
  | cons v rest =>
      show from_str ⟨false, false, some 0⟩
        (primaryArmsFrom ⟨false, false, some 0⟩ 0 (List.map Variant.name (v :: rest)) ++
          List.map (fun i => ([], i)) (List.range (v :: rest).length)) [] = Except.ok 0
      unfold from_str
      simp only
      rw [show (transform ⟨false, false, some 0⟩ ([] : List Char)) = [] from rfl]
      rw [List.find?_append, hfnone]
      simp only [Option.or]
      rw [List.length_cons, List.range_succ_eq_map, List.map_cons]
      rw [List.find?_cons_of_pos _ (by decide)]

theorem c9_truncate_zero_first_variant_witness :
    (([⟨"Red".data, true⟩, ⟨"Green".data, true⟩] : List Variant) ≠ []) ∧
    (∃ g, derive_fromstr [NestedArg.listMeta "truncate" [LitArg.int 0]]
        [⟨"Red".data, true⟩, ⟨"Green".data, true⟩] = Except.ok g ∧
      g.table = primaryArmsFrom g.cfg 0
          ([⟨"Red".data, true⟩, ⟨"Green".data, true⟩].map Variant.name) ++
        (List.range 2).map (fun i => ([], i)) ∧
      parseGen g [] = Except.ok 0) :=
  ⟨by decide,
    c9_truncate_zero_first_variant [⟨"Red".data, true⟩, ⟨"Green".data, true⟩]
      (by decide) (by decide) (by decide)⟩

/-- C10: pattern collisions are tolerated: generation succeeds with no
distinctness check, and parsing an input whose normalized form is the
pattern of variant i, where no earlier variant shares that pattern,
returns the first declaration-order variant i. -/
theorem c10_collision_keeps_first_declared :
    (∀ args variants, truncate_value args = Except.ok none →
        (∀ v ∈ variants, v.isUnit = true) →
        ∃ g, derive_fromstr args variants = Except.ok g) ∧
    (∀ args variants g s i,
        derive_fromstr args variants = Except.ok g →
        i < variants.length →
        transform g.cfg s = primaryPattern g.cfg ((variants.map Variant.name).getD i []) →
        (∀ k, k < i →
          primaryPattern g.cfg ((variants.map Variant.name).getD k []) ≠
            transform g.cfg s) →
        parseGen g s = Except.ok i) := by
  constructor
  · intro args variants htv hunit
    refine ⟨⟨⟨has_trim args, has_lowercase args, none⟩,
      primaryArmsFrom ⟨has_trim args, has_lowercase args, none⟩ 0
        (variants.map Variant.name)⟩, ?_⟩
    unfold derive_fromstr
    rw [htv]
    simp only
    rw [firstDataVariant_eq_none variants hunit]
  · intro args variants g s i h hi hs hfirst
    exact parse_first_primary args variants g s i h hi hs.symm hfirst

theorem c10_collision_keeps_first_declared_witness :
    (∃ g, derive_fromstr [NestedArg.path "lowercase"]
        [⟨"RED".data, true⟩, ⟨"Red".data, true⟩] = Except.ok g) ∧
    parseGen ⟨⟨false, true, none⟩, [("red".data, 0), ("red".data, 1)]⟩ "Red".data =
      Except.ok 0 :=
  ⟨c10_collision_keeps_first_declared.1 [NestedArg.path "lowercase"]
      [⟨"RED".data, true⟩, ⟨"Red".data, true⟩] (by decide) (by decide),
   c10_collision_keeps_first_declared.2 [NestedArg.path "lowercase"]
      [⟨"RED".data, true⟩, ⟨"Red".data, true⟩]
      ⟨⟨false, true, none⟩, [("red".data, 0), ("red".data, 1)]⟩ "Red".data 0
      (by decide) (by decide) (by decide)
      (fun k hk => absurd hk (by omega))⟩

end DeriveFromstr
